import Mathlib

/-! # Bitset and sieve of Eratosthenes (`src/bitset.c`, `src/sieve.c`)

A shallow embedding of the C sources.

* `size_t` values are natural numbers; every place where the C code can wrap
  is written with an explicit `% SIZE_MOD`.
* The byte buffer `data` is a list of natural numbers (one entry per byte);
  every store truncates to eight bits with `% 256`.
* A C function that can stop the process, touch memory outside the buffer,
  dereference `NULL` or loop returns `Except Fault _`; a `void` function that
  mutates its argument returns the new value of the argument.
* Loops carry a fuel argument counting loop-body executions; running out of
  fuel is the fault `Fault.out_of_fuel`.
-/

namespace Sieve

/-! ## Data model -/

/-- Number of values of the 64-bit type `size_t`. -/
def SIZE_MOD : Nat := 2 ^ 64

/-- Ways in which a call does not return normally. -/
inductive Fault where
  /-- The call `exit(EXIT_FAILURE)` in `check_index`. -/
  | exit_failure
  /-- An access `data[k]` with `k` outside the allocated buffer. -/
  | out_of_buffer
  /-- A dereference of a `NULL` pointer. -/
  | null_deref
  /-- The loop was still running when the fuel ran out. -/
  | out_of_fuel
  deriving DecidableEq, Repr

deriving instance DecidableEq for Except

/-- The record `struct bitset`: the logical length and the bytes that `data` points to. -/
structure bitset where
  length : Nat
  data : List Nat
  deriving DecidableEq, Repr

/-- The bytes handed out by `malloc (n)`: `n` bytes whose content is whatever
the allocator left there, given by `junk`. -/
def malloc (n : Nat) (junk : Nat → Nat) : List Nat :=
  (List.range n).map (fun k => junk k % 256)

/-! ## `bitset.c` -/

/-- The function `check_index`: the process exits when `index > self->length`. -/
def check_index (self : bitset) (index : Nat) : Except Fault Unit :=
  if index > self.length then .error .exit_failure else .ok ()

/-- The function `bitset_new`: `(length + 7) / 8` bytes from `malloc`, in `size_t` arithmetic. -/
def bitset_new (length : Nat) (junk : Nat → Nat) : bitset :=
  let n_bytes := (length + 7) % SIZE_MOD / 8
  { length := length, data := malloc (n_bytes * 1) junk }

/-- The function `bitset_len` (the source writes `self.length` on the pointer
`self`; it is read as `self->length`). -/
def bitset_len (self : bitset) : Nat :=
  self.length

/-- The function `bitset_get`. -/
def bitset_get (self : bitset) (index : Nat) : Except Fault Bool :=
  match check_index self index with
  | .error e => .error e
  | .ok _ =>
    let byte_index := index >>> 3
    let bit_index := index &&& 0b111
    match self.data[byte_index]? with
    | none => .error .out_of_buffer
    | some byte => .ok ((byte >>> bit_index) &&& 1 != 0)

/-- The function `bitset_set`; `~mask` is computed in `int` and the result is
stored back into a `uint8_t`. -/
def bitset_set (self : bitset) (index : Nat) (value : Bool) : Except Fault bitset :=
  match check_index self index with
  | .error e => .error e
  | .ok _ =>
    let byte_index := index >>> 3
    let bit_index := index &&& 0b111
    let mask := (1 <<< bit_index) % 256
    match self.data[byte_index]? with
    | none => .error .out_of_buffer
    | some byte =>
      if value then
        .ok { self with data := self.data.set byte_index ((byte ||| mask) % 256) }
      else
        .ok { self with data := self.data.set byte_index ((byte &&& (mask ^^^ 0xFFFFFFFF)) % 256) }

/-- The storage invariant of the data model: `length` is a `size_t` value and
the buffer holds `⌈length / 8⌉` bytes. -/
def bitset.WF (self : bitset) : Prop :=
  self.length < SIZE_MOD ∧ self.data.length = (self.length + 7) / 8

instance (self : bitset) : Decidable self.WF := by
  unfold bitset.WF; infer_instance

/-! ## `sieve.c`: the sieve object -/

/-- The record `struct sieve` (the Python object header is left out). -/
structure sieve_t where
  set : bitset
  deriving DecidableEq, Repr

/-- A Python object as seen by `PyArg_ParseTuple`: where it lives and, for an
integer object, its value. -/
structure PyObject where
  addr : Nat
  ob_ival : Int
  deriving DecidableEq, Repr

/-- The conversion done by `PyLong_FromLong` on a `size_t` argument: the value
is passed as a signed 64-bit `long`. -/
def PyLong_FromLong (v : Nat) : Int :=
  if v % SIZE_MOD < 2 ^ 63 then ((v % SIZE_MOD : Nat) : Int)
  else ((v % SIZE_MOD : Nat) : Int) - 2 ^ 64

/-- The function `sieve_init`: the format `"O"` stores the argument object's
pointer into `length`, which is then given to `bitset_new`. -/
def sieve_init (arg : PyObject) (junk : Nat → Nat) : sieve_t :=
  let length := arg.addr % SIZE_MOD
  { set := bitset_new length junk }

/-- The function `sieve_get`, after argument parsing. -/
def sieve_get (self : sieve_t) (index : Nat) : Except Fault Bool :=
  bitset_get self.set index

/-- The function `sieve_set`, after argument parsing. -/
def sieve_set (self : sieve_t) (index : Nat) (value : Bool) : Except Fault sieve_t :=
  match bitset_set self.set index value with
  | .error e => .error e
  | .ok set => .ok { set := set }

/-- The function `sieve_len`. -/
def sieve_len (self : sieve_t) : Int :=
  PyLong_FromLong (bitset_len self.set)

/-- The loop `for (size_t i = 2*n; i < length; i += n) bitset_set (set, i, true)`
of `sieve_filter`, entered with the current value of `i`. -/
def sieve_filter_loop : Nat → bitset → Nat → Nat → Nat → Except Fault bitset
  | fuel, set, n, length, i =>
    if i < length then
      match fuel with
      | 0 => .error .out_of_fuel
      | fuel + 1 =>
        match bitset_set set i true with
        | .error e => .error e
        | .ok set => sieve_filter_loop fuel set n length ((i + n) % SIZE_MOD)
    else .ok set

/-- The function `sieve_filter`, after argument parsing. -/
def sieve_filter (fuel : Nat) (self : sieve_t) (n : Nat) : Except Fault sieve_t :=
  let length := bitset_len self.set
  match bitset_get self.set n with
  | .error e => .error e
  | .ok true => .ok self
  | .ok false =>
    match sieve_filter_loop fuel self.set n length ((2 * n) % SIZE_MOD) with
    | .error e => .error e
    | .ok set => .ok { set := set }

/-! ## `sieve.c`: the iterator -/

/-- The record `struct sieve_iter`: `root_obj` is `some ()` while it points to
the sieve and `none` once it is `NULL`. -/
structure sieve_iter_t where
  index : Nat
  root_obj : Option Unit
  deriving DecidableEq, Repr

/-- The function `sieve_iter`: a new iterator at index 0. -/
def sieve_iter (_self : sieve_t) : sieve_iter_t :=
  { index := 0, root_obj := some () }

/-- The `while` loop of `sieve_iter_next`, entered with the current value of
the local `index`: `some index` when the loop is left normally, `none` when
the function returns from inside the loop. -/
def sieve_iter_next_loop : Nat → bitset → Nat → Nat → Except Fault (Option Nat)
  | fuel, set, length, index =>
    match bitset_get set index with
    | .error e => .error e
    | .ok false => .ok (some index)
    | .ok true =>
      let index := (index + 1) % SIZE_MOD
      if index ≥ length then .ok none
      else
        match fuel with
        | 0 => .error .out_of_fuel
        | fuel + 1 => sieve_iter_next_loop fuel set length index

/-- The function `sieve_iter_next`, on the current state `root` of the sieve
that `root_obj` points to: the value returned (`none` for `NULL`, the end of
the sequence) and the new state of the iterator. -/
def sieve_iter_next (fuel : Nat) (root : sieve_t) (self : sieve_iter_t) :
    Except Fault (Option Int × sieve_iter_t) :=
  let index := self.index
  match self.root_obj with
  | none => .error .null_deref
  | some _ =>
    let length := bitset_len root.set
    match sieve_iter_next_loop fuel root.set length index with
    | .error e => .error e
    | .ok none => .ok (none, { self with root_obj := none })
    | .ok (some index) =>
      .ok (some (PyLong_FromLong index), { self with index := (index + 1) % SIZE_MOD })

/-! ## Callers described by the specification -/

/-- Modelled from the spec: the caller's outer sieve loop, which is not part of
the sources: for `n`, `n + 1`, ... below `N`, if `get (n)` is false it calls
`filter (n)`. The first argument counts the values of `n` still to visit. -/
def drive : Nat → Nat → sieve_t → Nat → Nat → Except Fault sieve_t
  | 0, _, self, _, _ => .ok self
  | k + 1, fuel, self, N, n =>
    if n < N then
      match sieve_get self n with
      | .error e => .error e
      | .ok true => drive k fuel self N (n + 1)
      | .ok false =>
        match sieve_filter fuel self n with
        | .error e => .error e
        | .ok self => drive k fuel self N (n + 1)
    else .ok self

/-- Modelled from the spec: the whole driving loop `n = 2, 3, ..., N - 1` on a
sieve of length `N`. -/
def run_sieve (fuel : Nat) (self : sieve_t) (N : Nat) : Except Fault sieve_t :=
  drive N fuel self N 2

/-- Modelled from the spec: a caller that calls `next` on an iterator of an
unchanging sieve until the end of the sequence, at most `calls` times: the
values yielded so far, and how the iteration ended. -/
def iterate : Nat → Nat → sieve_t → sieve_iter_t → List Int × Except Fault Unit
  | 0, _, _, _ => ([], .error .out_of_fuel)
  | calls + 1, fuel, root, it =>
    match sieve_iter_next fuel root it with
    | .error e => ([], .error e)
    | .ok (none, _) => ([], .ok ())
    | .ok (some v, it) =>
      let r := iterate calls fuel root it
      (v :: r.1, r.2)


/-- Modelled from the spec: a caller that calls `next` on one iterator once for
each element of a list, the element being the state of the sieve at that call
(the sieve may be changed at will between two calls): the values returned, up
to the first call that does not return. -/
def next_calls : Nat → List sieve_t → sieve_iter_t → List Int
  | _, [], _ => []
  | fuel, root :: roots, it =>
    match sieve_iter_next fuel root it with
    | .error _ => []
    | .ok (none, it) => next_calls fuel roots it
    | .ok (some v, it) => v :: next_calls fuel roots it

/-- Modelled from the spec: a caller that applies `filter` for each element of a
list in turn, with no other access to the sieve. -/
def apply_filters : Nat → sieve_t → List Nat → Except Fault sieve_t
  | _, self, [] => .ok self
  | fuel, self, n :: ns =>
    match sieve_filter fuel self n with
    | .error e => .error e
    | .ok self => apply_filters fuel self ns

/-! ## Auxiliary notions used in the statements and proofs -/

/-- Bit `i` of the storage: bit `i % 8` of byte `i / 8` (a byte outside the buffer reads as 0). -/
def bitset.bit (self : bitset) (i : Nat) : Bool :=
  (self.data.getD (i / 8) 0).testBit (i % 8)

/-- The indices written by the marking loop entered at `i` with stride `n`. -/
def marked_from (n L i j : Nat) : Prop :=
  i ≤ j ∧ j < L ∧ n ∣ j - i

instance (n L i j : Nat) : Decidable (marked_from n L i j) := by
  unfold marked_from; infer_instance

/-- The number `j` has a divisor `d` with `2 ≤ d`, `d < m` and `d < j`: it is a
proper multiple of some candidate below `m`. -/
def has_divisor_below (m j : Nat) : Prop :=
  ∃ d, 2 ≤ d ∧ d < m ∧ d < j ∧ d ∣ j

/-! ## Bit arithmetic -/

theorem shiftRight_three (i : Nat) : i >>> 3 = i / 8 := by
  rw [Nat.shiftRight_eq_div_pow]

theorem land_seven (i : Nat) : i &&& 0b111 = i % 8 := by
  have h := Nat.and_pow_two_sub_one_eq_mod i 3
  simpa using h

theorem testBit_eq (byte k : Nat) : ((byte >>> k) &&& 1 != 0) = byte.testBit k := by
  unfold Nat.testBit
  rw [Nat.land_comm]

theorem testBit_store_true (byte k j : Nat) (hk : k < 8) (hj : j < 8) :
    ((byte ||| (1 <<< k) % 256) % 256).testBit j = (decide (j = k) || byte.testBit j) := by
  have h256 : (256 : Nat) = 2 ^ 8 := rfl
  rw [h256, Nat.testBit_mod_two_pow, Nat.testBit_or, Nat.testBit_mod_two_pow,
    Nat.one_shiftLeft, Nat.testBit_two_pow]
  by_cases h : j = k
  · subst h; simp [hj]
  · have h2 : ¬ k = j := fun e => h e.symm
    simp [hj, h, h2]

theorem testBit_store_false (byte k j : Nat) (hk : k < 8) (hj : j < 8) :
    ((byte &&& ((1 <<< k) % 256 ^^^ 0xFFFFFFFF)) % 256).testBit j
      = (!decide (j = k) && byte.testBit j) := by
  have h256 : (256 : Nat) = 2 ^ 8 := rfl
  have hff : (0xFFFFFFFF : Nat) = 2 ^ 32 - 1 := rfl
  have hj32 : j < 32 := by omega
  rw [h256, Nat.testBit_mod_two_pow, Nat.testBit_and, Nat.testBit_xor, Nat.testBit_mod_two_pow,
    Nat.one_shiftLeft, Nat.testBit_two_pow, hff, Nat.testBit_two_pow_sub_one]
  by_cases h : j = k
  · subst h; simp [hj, hj32]
  · have h2 : ¬ k = j := fun e => h e.symm
    simp [hj, hj32, h, h2]

/-! ## The bits of a bitset -/

theorem bitset_get_eq (b : bitset) (i : Nat) (hi : i ≤ b.length) (hb : i / 8 < b.data.length) :
    bitset_get b i = .ok (b.bit i) := by
  have hc : check_index b i = .ok () := by
    unfold check_index; rw [if_neg (by omega)]
  unfold bitset_get
  simp only [hc, shiftRight_three, land_seven, testBit_eq]
  rw [List.getElem?_eq_getElem hb]
  simp [bitset.bit, List.getD_eq_getElem?_getD, List.getElem?_eq_getElem hb]

theorem bitset_set_eq (b : bitset) (i : Nat) (v : Bool) (hi : i ≤ b.length)
    (hb : i / 8 < b.data.length) :
    ∃ b2, bitset_set b i v = .ok b2 ∧ b2.length = b.length ∧ b2.data.length = b.data.length ∧
      ∀ j, b2.bit j = if j = i then v else b.bit j := by
  have hc : check_index b i = .ok () := by
    unfold check_index; rw [if_neg (by omega)]
  have hi8 : i % 8 < 8 := Nat.mod_lt _ (by decide)
  unfold bitset_set
  simp only [hc, shiftRight_three, land_seven]
  rw [List.getElem?_eq_getElem hb]
  cases v
  · refine ⟨_, rfl, rfl, by simp, ?_⟩
    intro j
    have hj8 : j % 8 < 8 := Nat.mod_lt _ (by decide)
    by_cases hji : j = i
    · subst hji
      simp [bitset.bit, List.getD_eq_getElem?_getD, hb, testBit_store_false _ _ _ hi8 hi8]
    · rw [if_neg hji]
      by_cases hq : j / 8 = i / 8
      · have hr : j % 8 ≠ i % 8 := by omega
        simp [bitset.bit, List.getD_eq_getElem?_getD, hq, hb,
          testBit_store_false _ _ _ hi8 hj8, hr]
      · have hq2 : i / 8 ≠ j / 8 := fun e => hq e.symm
        simp [bitset.bit, List.getD_eq_getElem?_getD, List.getElem?_set_ne hq2]
  · refine ⟨_, rfl, rfl, by simp, ?_⟩
    intro j
    have hj8 : j % 8 < 8 := Nat.mod_lt _ (by decide)
    by_cases hji : j = i
    · subst hji
      simp [bitset.bit, List.getD_eq_getElem?_getD, hb, testBit_store_true _ _ _ hi8 hi8]
    · rw [if_neg hji]
      by_cases hq : j / 8 = i / 8
      · have hr : j % 8 ≠ i % 8 := by omega
        simp [bitset.bit, List.getD_eq_getElem?_getD, hq, hb,
          testBit_store_true _ _ _ hi8 hj8, hr]
      · have hq2 : i / 8 ≠ j / 8 := fun e => hq e.symm
        simp [bitset.bit, List.getD_eq_getElem?_getD, List.getElem?_set_ne hq2]

theorem WF_byte_lt (b : bitset) (hb : b.WF) (i : Nat) (hi : i < b.length) :
    i / 8 < b.data.length := by
  rw [hb.2]; omega

theorem bitset_get_congr (b b2 : bitset) (j : Nat) (hl : b2.length = b.length)
    (hd : b2.data.length = b.data.length) (hbit : b2.bit j = b.bit j) :
    bitset_get b2 j = bitset_get b j := by
  unfold bitset_get check_index
  rw [hl]
  by_cases hj : j > b.length
  · simp [hj]
  · simp only [hj, if_false, shiftRight_three, land_seven, testBit_eq]
    by_cases hb : j / 8 < b.data.length
    · have hb2 : j / 8 < b2.data.length := by omega
      rw [List.getElem?_eq_getElem hb, List.getElem?_eq_getElem hb2]
      simp only [bitset.bit, List.getD_eq_getElem?_getD, List.getElem?_eq_getElem hb,
        List.getElem?_eq_getElem hb2, Option.getD_some] at hbit
      simp [hbit]
    · have hb2 : ¬ j / 8 < b2.data.length := by omega
      rw [List.getElem?_eq_none (by omega), List.getElem?_eq_none (by omega)]

theorem bitset_get_gt (b : bitset) (i : Nat) (hi : b.length < i) :
    bitset_get b i = .error .exit_failure := by
  unfold bitset_get check_index
  simp [hi]

theorem bitset_set_gt (b : bitset) (i : Nat) (v : Bool) (hi : b.length < i) :
    bitset_set b i v = .error .exit_failure := by
  unfold bitset_set check_index
  simp [hi]

theorem marked_from_step (n L i j : Nat) (hn : 1 ≤ n) (hiL : i < L) :
    marked_from n L i j ↔ (j = i ∨ marked_from n L (i + n) j) := by
  unfold marked_from
  constructor
  · rintro ⟨h1, h2, h3⟩
    by_cases hji : j = i
    · exact Or.inl hji
    · right
      obtain ⟨c, hc⟩ := h3
      have hc0 : c ≠ 0 := by
        rintro rfl
        simp at hc; omega
      obtain ⟨d, hd⟩ := Nat.exists_eq_succ_of_ne_zero hc0
      have hmul : n * c = n * d + n := by rw [hd, Nat.succ_eq_add_one]; ring
      refine ⟨by omega, h2, ⟨d, by omega⟩⟩
  · rintro (rfl | ⟨h1, h2, ⟨d, hd⟩⟩)
    · exact ⟨le_refl _, hiL, by simp⟩
    · refine ⟨by omega, h2, ⟨d + 1, ?_⟩⟩
      have : n * (d + 1) = n * d + n := by ring
      omega

theorem sieve_filter_loop_spec (n L : Nat) (hn : 1 ≤ n) (hL : L + n ≤ SIZE_MOD) :
    ∀ (fuel : Nat) (b : bitset) (i : Nat), b.length = L → b.data.length = (L + 7) / 8 →
      L ≤ i + fuel * n →
      ∃ b2, sieve_filter_loop fuel b n L i = .ok b2 ∧ b2.length = L ∧
        b2.data.length = b.data.length ∧
        ∀ j, b2.bit j = (b.bit j || decide (marked_from n L i j)) := by
  intro fuel
  induction fuel with
  | zero =>
    intro b i hl hd hf
    have hi : ¬ i < L := by omega
    refine ⟨b, ?_, hl, rfl, ?_⟩
    · unfold sieve_filter_loop; simp [hi]
    · intro j
      have : ¬ marked_from n L i j := by
        unfold marked_from; omega
      simp [this]
  | succ fuel ih =>
    intro b i hl hd hf
    by_cases hi : i < L
    · obtain ⟨b1, hset, hl1, hd1, hbit1⟩ :=
        bitset_set_eq b i true (by omega) (by rw [hd]; omega)
      have hwrap : (i + n) % SIZE_MOD = i + n := Nat.mod_eq_of_lt (by omega)
      have hf2 : L ≤ i + n + fuel * n := by
        have : (fuel + 1) * n = fuel * n + n := by ring
        omega
      obtain ⟨b2, hloop, hl2, hd2, hbit2⟩ := ih b1 (i + n) (by omega) (by omega) hf2
      refine ⟨b2, ?_, hl2, by omega, ?_⟩
      · unfold sieve_filter_loop
        simp only [hi, if_true, hset, hwrap]
        exact hloop
      · intro j
        rw [hbit2, hbit1]
        have hstep := marked_from_step n L i j hn hi
        by_cases hji : j = i
        · have hm : marked_from n L i j := hstep.2 (Or.inl hji)
          subst hji
          simp [hm]
        · by_cases hm : marked_from n L (i + n) j
          · have hm2 : marked_from n L i j := hstep.2 (Or.inr hm)
            simp [hm, hm2]
          · have hm2 : ¬ marked_from n L i j := fun h => (hstep.1 h).elim hji hm
            simp [hji, hm, hm2]
    · refine ⟨b, ?_, hl, rfl, ?_⟩
      · unfold sieve_filter_loop; simp [hi]
      · intro j
        have : ¬ marked_from n L i j := by
          unfold marked_from; omega
        simp [this]

theorem marked_from_two_mul (n L j : Nat) :
    marked_from n L (2 * n) j ↔ (j < L ∧ ∃ k, 2 ≤ k ∧ j = k * n) := by
  unfold marked_from
  constructor
  · rintro ⟨h1, h2, ⟨d, hd⟩⟩
    refine ⟨h2, d + 2, by omega, ?_⟩
    have : (d + 2) * n = n * d + 2 * n := by ring
    omega
  · rintro ⟨h2, k, hk, rfl⟩
    obtain ⟨d, rfl⟩ : ∃ d, k = d + 2 := ⟨k - 2, by omega⟩
    have : (d + 2) * n = n * d + 2 * n := by ring
    exact ⟨by omega, h2, ⟨d, by omega⟩⟩

theorem fuel_enough (L n fuel : Nat) (hn : 1 ≤ n) (hf : L / n ≤ fuel) :
    L ≤ 2 * n + fuel * n := by
  have h1 := Nat.div_add_mod L n
  have h2 : L % n < n := Nat.mod_lt _ hn
  have h3 : n * (L / n) ≤ n * fuel := Nat.mul_le_mul_left n hf
  have h4 : n * fuel = fuel * n := Nat.mul_comm _ _
  omega

theorem sieve_filter_spec (fuel : Nat) (s : sieve_t) (n : Nat) (hwf : s.set.WF)
    (hn : 1 ≤ n) (h2n : 2 * n < SIZE_MOD) (hLn : s.set.length + n ≤ SIZE_MOD)
    (hget : sieve_get s n = .ok false) (hfuel : s.set.length / n ≤ fuel) :
    ∃ s2, sieve_filter fuel s n = .ok s2 ∧ s2.set.length = s.set.length ∧
      s2.set.data.length = s.set.data.length ∧
      ∀ j, s2.set.bit j = (s.set.bit j || decide (marked_from n s.set.length (2 * n) j)) := by
  obtain ⟨b2, hloop, hl2, hd2, hbit2⟩ :=
    sieve_filter_loop_spec n s.set.length hn hLn fuel s.set (2 * n) rfl hwf.2
      (fuel_enough _ _ _ hn hfuel)
  refine ⟨{ set := b2 }, ?_, hl2, hd2, ?_⟩
  · unfold sieve_filter
    unfold sieve_get at hget
    simp only [hget, bitset_len, Nat.mod_eq_of_lt h2n, hloop]
  · exact hbit2

theorem bitset_new_WF (length : Nat) (junk : Nat → Nat) (h : length + 7 < SIZE_MOD) :
    (bitset_new length junk).WF := by
  unfold bitset.WF bitset_new malloc
  simp only [List.length_map, List.length_range, Nat.mul_one, Nat.mod_eq_of_lt h]
  exact ⟨by omega, trivial⟩

theorem bitset_set_WF (b b2 : bitset) (i : Nat) (v : Bool) (hb : b.WF)
    (h : bitset_set b i v = .ok b2) : b2.WF := by
  unfold bitset_set at h
  cases hc : check_index b i with
  | error e => simp [hc] at h
  | ok u =>
    simp only [hc] at h
    cases hd : b.data[i >>> 3]? with
    | none => simp [hd] at h
    | some byte =>
      simp only [hd] at h
      cases v
      · simp at h
        subst h
        exact ⟨hb.1, by simpa using hb.2⟩
      · simp at h
        subst h
        exact ⟨hb.1, by simpa using hb.2⟩

theorem sieve_filter_loop_zero_stride (L : Nat) (hL : 0 < L) :
    ∀ (fuel : Nat) (b : bitset), b.length = L → b.data.length = (L + 7) / 8 →
      sieve_filter_loop fuel b 0 L 0 = .error .out_of_fuel := by
  intro fuel
  induction fuel with
  | zero =>
    intro b _ _
    unfold sieve_filter_loop; simp [hL]
  | succ fuel ih =>
    intro b hl hd
    obtain ⟨b1, hset, hl1, hd1, _⟩ := bitset_set_eq b 0 true (by omega) (by rw [hd]; omega)
    unfold sieve_filter_loop
    simp only [hL, if_true, hset, Nat.add_zero, Nat.zero_mod]
    exact ih b1 (by omega) (by omega)

/-- With stride 0 the marking loop of `sieve_filter` never ends: on a sieve of
positive length whose index 0 is unmarked, `sieve_filter` at 0 is still running
whatever fuel it is given. -/
theorem sieve_filter_zero_diverges (s : sieve_t) (hwf : s.set.WF) (hL : 0 < s.set.length)
    (hget : sieve_get s 0 = .ok false) (fuel : Nat) :
    sieve_filter fuel s 0 = .error .out_of_fuel := by
  unfold sieve_filter
  unfold sieve_get at hget
  simp only [hget, bitset_len, Nat.mul_zero, Nat.zero_mod,
    sieve_filter_loop_zero_stride s.set.length hL fuel s.set rfl hwf.2]

/-- At `index == length` the bounds check does not stop the call: on a bitset
with the storage invariant, `bitset_get` reads a padding bit of the last byte
when the length is not a multiple of 8, and the byte after the buffer when it is. -/
theorem bitset_get_at_length (b : bitset) (hwf : b.WF) :
    bitset_get b b.length =
      if b.length % 8 = 0 then .error .out_of_buffer else .ok (b.bit b.length) := by
  by_cases h8 : b.length % 8 = 0
  · rw [if_pos h8]
    have hc : check_index b b.length = .ok () := by
      unfold check_index; rw [if_neg (by omega)]
    have hnone : b.data[b.length / 8]? = none :=
      List.getElem?_eq_none (by rw [hwf.2]; omega)
    unfold bitset_get
    simp only [hc, shiftRight_three, hnone]
  · rw [if_neg h8]
    exact bitset_get_eq b b.length (le_refl _) (by rw [hwf.2]; omega)

/-- Once `sieve_iter_next` has returned the end of the sequence, every later call
on the iterator it left behind dereferences `NULL`, whatever the sieve holds. -/
theorem sieve_iter_next_after_end (fuel : Nat) (root : sieve_t) (it it2 : sieve_iter_t)
    (h : sieve_iter_next fuel root it = .ok (none, it2)) (fuel2 : Nat) (root2 : sieve_t) :
    sieve_iter_next fuel2 root2 it2 = .error .null_deref := by
  have hnull : it2.root_obj = none := by
    unfold sieve_iter_next at h
    cases hr : it.root_obj with
    | none => simp [hr] at h
    | some u =>
      simp only [hr] at h
      cases hl : sieve_iter_next_loop fuel root.set (bitset_len root.set) it.index with
      | error e => simp [hl] at h
      | ok r =>
        cases r with
        | none =>
          simp only [hl, Except.ok.injEq, Prod.mk.injEq, true_and] at h
          rw [← h]
        | some idx => simp [hl] at h
  unfold sieve_iter_next
  simp only [hnull]

/-! ## The driving loop on cleared storage -/

theorem bitset_new_zero_bit (N j : Nat) : (bitset_new N (fun _ => 0)).bit j = false := by
  unfold bitset.bit bitset_new malloc
  rw [List.getD_eq_getElem?_getD]
  cases h : (List.map (fun k => (fun _ => 0) k % 256)
      (List.range ((N + 7) % SIZE_MOD / 8 * 1)))[j / 8]? with
  | none => simp
  | some x =>
    rw [List.getElem?_eq_some_iff] at h
    obtain ⟨_, hx⟩ := h
    simp at hx
    simp [← hx]

theorem WF_of_lengths (b b2 : bitset) (hb : b.WF) (hl : b2.length = b.length)
    (hd : b2.data.length = b.data.length) : b2.WF :=
  ⟨by rw [hl]; exact hb.1, by rw [hd, hl]; exact hb.2⟩

theorem has_divisor_below_succ_of_marked (n j : Nat) (hn : 2 ≤ n)
    (hmn : has_divisor_below n n) :
    has_divisor_below (n + 1) j ↔ has_divisor_below n j := by
  unfold has_divisor_below at *
  constructor
  · rintro ⟨d, h2, hd, hdj, hdvd⟩
    by_cases hdn : d < n
    · exact ⟨d, h2, hdn, hdj, hdvd⟩
    · have hde : d = n := by omega
      subst hde
      obtain ⟨e, he2, hen, _, hedvd⟩ := hmn
      exact ⟨e, he2, hen, by omega, Nat.dvd_trans hedvd hdvd⟩
  · rintro ⟨d, h2, hd, hdj, hdvd⟩
    exact ⟨d, h2, by omega, hdj, hdvd⟩

theorem has_divisor_below_succ_of_filter (n N j : Nat) (hn : 2 ≤ n) (hj : j < N) :
    has_divisor_below (n + 1) j ↔
      (has_divisor_below n j ∨ marked_from n N (2 * n) j) := by
  rw [marked_from_two_mul]
  unfold has_divisor_below
  constructor
  · rintro ⟨d, h2, hd, hdj, hdvd⟩
    by_cases hdn : d < n
    · exact Or.inl ⟨d, h2, hdn, hdj, hdvd⟩
    · have hde : d = n := by omega
      subst hde
      obtain ⟨c, hc⟩ := hdvd
      refine Or.inr ⟨hj, c, ?_, by rw [hc, Nat.mul_comm]⟩
      by_contra hc2
      have hc1 : c ≤ 1 := by omega
      have : d * c ≤ d * 1 := Nat.mul_le_mul_left d hc1
      omega
  · rintro (⟨d, h2, hd, hdj, hdvd⟩ | ⟨_, k, hk, rfl⟩)
    · exact ⟨d, h2, by omega, hdj, hdvd⟩
    · refine ⟨n, hn, by omega, ?_, Dvd.intro_left k rfl⟩
      have : 2 * n ≤ k * n := Nat.mul_le_mul_right n hk
      omega

theorem drive_spec (N fuel : Nat) (hN : N ≤ 2 ^ 63) (hfuel : N / 2 ≤ fuel) :
    ∀ (k : Nat) (s : sieve_t) (n : Nat), s.set.WF → s.set.length = N → 2 ≤ n → N ≤ n + k →
      (∀ j, s.set.bit j = true ↔ (j < N ∧ has_divisor_below n j)) →
      ∃ s2, drive k fuel s N n = .ok s2 ∧ s2.set.WF ∧ s2.set.length = N ∧
        ∀ j, s2.set.bit j = true ↔ (j < N ∧ has_divisor_below N j) := by
  have hM : SIZE_MOD = 2 ^ 64 := rfl
  have hdone : ∀ (s : sieve_t) (n : Nat), N ≤ n →
      (∀ j, s.set.bit j = true ↔ (j < N ∧ has_divisor_below n j)) →
      ∀ j, s.set.bit j = true ↔ (j < N ∧ has_divisor_below N j) := by
    intro s n hn hinv j
    rw [hinv j]
    unfold has_divisor_below
    constructor
    · rintro ⟨hj, d, h2, _, hdj, hdvd⟩
      exact ⟨hj, d, h2, by omega, hdj, hdvd⟩
    · rintro ⟨hj, d, h2, _, hdj, hdvd⟩
      exact ⟨hj, d, h2, by omega, hdj, hdvd⟩
  intro k
  induction k with
  | zero =>
    intro s n hwf hl h2 hk hinv
    exact ⟨s, by unfold drive; rfl, hwf, hl, hdone s n (by omega) hinv⟩
  | succ k ih =>
    intro s n hwf hl h2 hk hinv
    by_cases hnN : n < N
    · have hb := WF_byte_lt s.set hwf n (by omega)
      have hget : sieve_get s n = .ok (s.set.bit n) := by
        unfold sieve_get
        exact bitset_get_eq s.set n (by omega) hb
      cases hbit : s.set.bit n with
      | true =>
        have hmn : has_divisor_below n n := ((hinv n).1 hbit).2
        have hinv2 : ∀ j, s.set.bit j = true ↔ (j < N ∧ has_divisor_below (n + 1) j) := by
          intro j
          rw [hinv j, has_divisor_below_succ_of_marked n j h2 hmn]
        obtain ⟨s2, hd2, hrest⟩ := ih s (n + 1) hwf hl (by omega) (by omega) hinv2
        refine ⟨s2, ?_, hrest⟩
        unfold drive
        simp only [hnN, if_true, hget, hbit]
        exact hd2
      | false =>
        rw [hbit] at hget
        have hfu : s.set.length / n ≤ fuel := by
          rw [hl]
          exact le_trans (Nat.div_le_div_left h2 (by decide)) hfuel
        obtain ⟨s1, hf, hl1, hd1, hbit1⟩ :=
          sieve_filter_spec fuel s n hwf (by omega) (by omega) (by omega) hget hfu
        have hwf1 : s1.set.WF := WF_of_lengths s.set s1.set hwf hl1 hd1
        have hinv2 : ∀ j, s1.set.bit j = true ↔ (j < N ∧ has_divisor_below (n + 1) j) := by
          intro j
          rw [hbit1 j, Bool.or_eq_true, hinv j, decide_eq_true_eq, hl]
          by_cases hj : j < N
          · rw [has_divisor_below_succ_of_filter n N j h2 hj]
            simp [hj]
          · have hm : ¬ marked_from n N (2 * n) j := by
              unfold marked_from; omega
            simp [hj, hm]
        obtain ⟨s2, hd2, hrest⟩ := ih s1 (n + 1) hwf1 (by omega) (by omega) (by omega) hinv2
        refine ⟨s2, ?_, hrest⟩
        unfold drive
        simp only [hnN, if_true, hget, hf]
        exact hd2
    · exact ⟨s, by unfold drive; simp [hnN], hwf, hl, hdone s n (by omega) hinv⟩

/-- On cleared storage the driving loop is a correct sieve of Eratosthenes: for
`N ≤ 2 ^ 63` and fuel `N / 2`, running it on a zeroed bitset of length `N` returns
normally, and afterwards every index `i` with `2 ≤ i < N` reads `true` exactly
when `i` is not prime, while indices 0 and 1 read `false`. -/
theorem run_sieve_zeroed (N fuel : Nat) (hN : N ≤ 2 ^ 63) (hfuel : N / 2 ≤ fuel) :
    ∃ s2, run_sieve fuel ⟨bitset_new N (fun _ => 0)⟩ N = .ok s2 ∧
      bitset_len s2.set = N ∧
      (∀ i, 2 ≤ i → i < N → (sieve_get s2 i = .ok true ↔ ¬ Nat.Prime i)) ∧
      (∀ i, 2 ≤ i → i < N → (sieve_get s2 i = .ok false ↔ Nat.Prime i)) ∧
      (∀ i, i < 2 → i < N → sieve_get s2 i = .ok false) := by
  have hM : SIZE_MOD = 2 ^ 64 := rfl
  have hwf : (bitset_new N (fun _ => 0)).WF := bitset_new_WF N _ (by omega)
  have hinv : ∀ j, (⟨bitset_new N (fun _ => 0)⟩ : sieve_t).set.bit j = true ↔
      (j < N ∧ has_divisor_below 2 j) := by
    intro j
    rw [bitset_new_zero_bit]
    unfold has_divisor_below
    constructor
    · intro h; cases h
    · rintro ⟨_, d, h2, hd, _⟩; omega
  obtain ⟨s2, hrun, hwf2, hl2, hbits⟩ :=
    drive_spec N fuel hN hfuel N ⟨bitset_new N (fun _ => 0)⟩ 2 hwf rfl (le_refl 2)
      (by omega) hinv
  have hget : ∀ i, i < N → sieve_get s2 i = .ok (s2.set.bit i) := by
    intro i hi
    unfold sieve_get
    exact bitset_get_eq s2.set i (by omega) (WF_byte_lt s2.set hwf2 i (by omega))
  have hcomp : ∀ i, 2 ≤ i → i < N → (s2.set.bit i = true ↔ ¬ Nat.Prime i) := by
    intro i h2 hi
    rw [hbits i, Nat.not_prime_iff_exists_dvd_lt h2]
    unfold has_divisor_below
    constructor
    · rintro ⟨_, d, hd2, _, hdi, hdvd⟩
      exact ⟨d, hdvd, hd2, hdi⟩
    · rintro ⟨d, hdvd, hd2, hdi⟩
      exact ⟨hi, d, hd2, by omega, hdi, hdvd⟩
  refine ⟨s2, hrun, ?_, ?_, ?_, ?_⟩
  · exact hl2
  · intro i h2 hi
    rw [hget i hi, ← hcomp i h2 hi]
    simp
  · intro i h2 hi
    rw [hget i hi]
    have := hcomp i h2 hi
    cases hb : s2.set.bit i
    · simp [hb] at this
      simp [this]
    · simp [hb] at this
      simp [this]
  · intro i h2 hi
    rw [hget i hi]
    have hnb : ¬ s2.set.bit i = true := by
      rw [hbits i]
      unfold has_divisor_below
      rintro ⟨_, d, hd2, _, hdi, _⟩
      omega
    simp at hnb
    rw [hnb]

/-! ## Claims about the bitset -/

/-- C1: round trip with frame. On a bitset that satisfies the storage invariant,
for every index `i` below the length and every boolean `v`, `bitset_set` returns
normally; afterwards `bitset_get` at `i` returns `v`, every other index below the
length reads the value it read before, and the length is unchanged. -/
theorem set_get_round_trip (b : bitset) (i : Nat) (v : Bool) (hwf : b.WF)
    (hi : i < b.length) :
    ∃ b2, bitset_set b i v = .ok b2 ∧ bitset_get b2 i = .ok v ∧
      (∀ j, j < b.length → j ≠ i →
        ∃ w, bitset_get b j = .ok w ∧ bitset_get b2 j = .ok w) ∧
      bitset_len b2 = bitset_len b := by
  have hb := WF_byte_lt b hwf i hi
  obtain ⟨b2, hset, hl, hd, hbit⟩ := bitset_set_eq b i v (by omega) hb
  refine ⟨b2, hset, ?_, ?_, hl⟩
  · rw [bitset_get_eq b2 i (by omega) (by omega), hbit i, if_pos rfl]
  · intro j hj hji
    have hbj := WF_byte_lt b hwf j hj
    refine ⟨b.bit j, bitset_get_eq b j (by omega) hbj, ?_⟩
    rw [bitset_get_eq b2 j (by omega) (by omega), hbit j, if_neg hji]

/-- Witness for C1: setting index 9 of a zeroed bitset of length 10. -/
theorem set_get_round_trip_witness :
    (⟨10, [0, 0]⟩ : bitset).WF ∧ 9 < (⟨10, [0, 0]⟩ : bitset).length ∧
    ∃ b2, bitset_set ⟨10, [0, 0]⟩ 9 true = .ok b2 ∧ bitset_get b2 9 = .ok true ∧
      (∀ j, j < (⟨10, [0, 0]⟩ : bitset).length → j ≠ 9 →
        ∃ w, bitset_get ⟨10, [0, 0]⟩ j = .ok w ∧ bitset_get b2 j = .ok w) ∧
      bitset_len b2 = bitset_len ⟨10, [0, 0]⟩ :=
  ⟨by decide, by decide, set_get_round_trip ⟨10, [0, 0]⟩ 9 true (by decide) (by decide)⟩

/-- C2, the code at the failing input: `check_index` lets `index == length`
through. On a bitset of length 1, `bitset_get` at 1 returns a value (a padding
bit) and `bitset_set` at 1 changes the stored byte; on a bitset of length 8 the
same calls touch the byte after the buffer. -/
theorem check_index_accepts_length :
    bitset_get (bitset_new 1 (fun _ => 0)) 1 = .ok false ∧
    bitset_set (bitset_new 1 (fun _ => 0)) 1 true = .ok ⟨1, [2]⟩ ∧
    bitset_get (bitset_new 8 (fun _ => 0)) 8 = .error .out_of_buffer ∧
    bitset_set (bitset_new 8 (fun _ => 0)) 8 true = .error .out_of_buffer := by
  decide

/-- C3, the code at the failing input: `bitset_new` does not clear the bytes it
gets from `malloc`. When the allocator hands out a byte holding 1, the new bitset
of length 1 reads `true` at index 0; and `sieve_init` makes the length the
address of its argument, not its value. -/
theorem bitset_new_not_cleared :
    bitset_len (bitset_new 1 (fun _ => 1)) = 1 ∧
    bitset_get (bitset_new 1 (fun _ => 1)) 0 = .ok true ∧
    sieve_len (sieve_init ⟨4096, 30⟩ (fun _ => 0)) = 4096 := by
  refine ⟨by decide, by decide, ?_⟩
  simp [sieve_len, sieve_init, bitset_new, bitset_len, PyLong_FromLong, SIZE_MOD]

/-! ## Claims about `sieve_filter` -/

/-- C4: filter marking. On a sieve that satisfies the storage invariant and has
length `L ≤ 2 ^ 63`, for `2 ≤ n < L` with index `n` unmarked, `sieve_filter`
returns normally when given fuel `L / n`; afterwards every index below `L` of
the form `k * n` with `k ≥ 2` reads `true`, every other index below `L` reads
the value it read before, and the length is unchanged. -/
theorem sieve_filter_marks (fuel : Nat) (s : sieve_t) (n : Nat) (hwf : s.set.WF)
    (hL : s.set.length ≤ 2 ^ 63) (h2 : 2 ≤ n) (hn : n < s.set.length)
    (hget : sieve_get s n = .ok false) (hfuel : s.set.length / n ≤ fuel) :
    ∃ s2, sieve_filter fuel s n = .ok s2 ∧ bitset_len s2.set = bitset_len s.set ∧
      (∀ i, i < s.set.length → (∃ k, 2 ≤ k ∧ i = k * n) → sieve_get s2 i = .ok true) ∧
      (∀ i, i < s.set.length → (¬ ∃ k, 2 ≤ k ∧ i = k * n) →
        ∃ w, sieve_get s i = .ok w ∧ sieve_get s2 i = .ok w) := by
  have hM : SIZE_MOD = 2 ^ 64 := rfl
  obtain ⟨s2, hf, hl, hd, hbit⟩ :=
    sieve_filter_spec fuel s n hwf (by omega) (by omega) (by omega) hget hfuel
  refine ⟨s2, hf, hl, ?_, ?_⟩
  · intro i hi hk
    have hb := WF_byte_lt s.set hwf i hi
    have hm : marked_from n s.set.length (2 * n) i := (marked_from_two_mul _ _ _).2 ⟨hi, hk⟩
    unfold sieve_get
    rw [bitset_get_eq s2.set i (by omega) (by omega), hbit i]
    simp [hm]
  · intro i hi hk
    have hb := WF_byte_lt s.set hwf i hi
    have hm : ¬ marked_from n s.set.length (2 * n) i :=
      fun h => hk ((marked_from_two_mul _ _ _).1 h).2
    refine ⟨s.set.bit i, bitset_get_eq s.set i (by omega) hb, ?_⟩
    unfold sieve_get
    rw [bitset_get_eq s2.set i (by omega) (by omega), hbit i]
    simp [hm]

/-- Witness for C4: `sieve_filter` at 2 on a zeroed sieve of length 10. -/
theorem sieve_filter_marks_witness :
    (⟨⟨10, [0, 0]⟩⟩ : sieve_t).set.WF ∧ (⟨⟨10, [0, 0]⟩⟩ : sieve_t).set.length ≤ 2 ^ 63 ∧
    2 ≤ 2 ∧ 2 < (⟨⟨10, [0, 0]⟩⟩ : sieve_t).set.length ∧
    sieve_get ⟨⟨10, [0, 0]⟩⟩ 2 = .ok false ∧
    (⟨⟨10, [0, 0]⟩⟩ : sieve_t).set.length / 2 ≤ 5 ∧
    ∃ s2, sieve_filter 5 ⟨⟨10, [0, 0]⟩⟩ 2 = .ok s2 ∧
      bitset_len s2.set = bitset_len (⟨⟨10, [0, 0]⟩⟩ : sieve_t).set ∧
      (∀ i, i < (⟨⟨10, [0, 0]⟩⟩ : sieve_t).set.length → (∃ k, 2 ≤ k ∧ i = k * 2) →
        sieve_get s2 i = .ok true) ∧
      (∀ i, i < (⟨⟨10, [0, 0]⟩⟩ : sieve_t).set.length → (¬ ∃ k, 2 ≤ k ∧ i = k * 2) →
        ∃ w, sieve_get ⟨⟨10, [0, 0]⟩⟩ i = .ok w ∧ sieve_get s2 i = .ok w) :=
  ⟨by decide, by decide, by decide, by decide, by decide, by decide,
    sieve_filter_marks 5 ⟨⟨10, [0, 0]⟩⟩ 2 (by decide) (by decide) (by decide) (by decide)
      (by decide) (by decide)⟩

/-- C5: filter no-op. When index `n` reads `true`, `sieve_filter` at `n` returns
normally with the sieve unchanged, whatever the fuel. -/
theorem sieve_filter_marked_noop (fuel : Nat) (s : sieve_t) (n : Nat)
    (hget : sieve_get s n = .ok true) :
    sieve_filter fuel s n = .ok s := by
  unfold sieve_filter
  unfold sieve_get at hget
  simp only [hget]

/-- Witness for C5: index 4 is marked in the sieve with bytes `[16, 0]`. -/
theorem sieve_filter_marked_noop_witness :
    sieve_get ⟨⟨10, [16, 0]⟩⟩ 4 = .ok true ∧
    sieve_filter 0 ⟨⟨10, [16, 0]⟩⟩ 4 = .ok ⟨⟨10, [16, 0]⟩⟩ :=
  ⟨by decide, sieve_filter_marked_noop 0 ⟨⟨10, [16, 0]⟩⟩ 4 (by decide)⟩

/-- C6, counterexample: `sieve_filter` at 1 on a zeroed sieve of length 4 returns
normally and marks indices 2 and 3. -/
theorem sieve_filter_one_marks :
    sieve_filter 2 ⟨bitset_new 4 (fun _ => 0)⟩ 1 = .ok ⟨⟨4, [12]⟩⟩ ∧
    sieve_get ⟨bitset_new 4 (fun _ => 0)⟩ 2 = .ok false ∧
    sieve_get ⟨⟨4, [12]⟩⟩ 2 = .ok true := by
  decide

/-- C6 as amended: `sieve_filter` has no invalid-argument failure. On a sieve
that satisfies the storage invariant, `sieve_filter` at 0 or 1 returns normally
with the sieve unchanged when that index reads `true`; and when index 1 reads
`false`, `sieve_filter` at 1 returns normally given fuel `L`, marks every index
from 2 up to the length and leaves what indices 0 and 1 read unchanged. -/
theorem sieve_filter_below_two (s : sieve_t) (hwf : s.set.WF) :
    (∀ n, n < 2 → sieve_get s n = .ok true → ∀ fuel, sieve_filter fuel s n = .ok s) ∧
    (sieve_get s 1 = .ok false → ∀ fuel, s.set.length ≤ fuel →
      ∃ s2, sieve_filter fuel s 1 = .ok s2 ∧ bitset_len s2.set = bitset_len s.set ∧
        (∀ i, 2 ≤ i → i < s.set.length → sieve_get s2 i = .ok true) ∧
        sieve_get s2 0 = sieve_get s 0 ∧ sieve_get s2 1 = sieve_get s 1) := by
  have hM : SIZE_MOD = 2 ^ 64 := rfl
  have hlt := hwf.1
  refine ⟨?_, ?_⟩
  · intro n _ hget fuel
    unfold sieve_filter
    unfold sieve_get at hget
    simp only [hget]
  · intro hget fuel hfuel
    obtain ⟨s2, hf, hl, hd, hbit⟩ :=
      sieve_filter_spec fuel s 1 hwf (by omega) (by omega) (by omega) hget
        (by rw [Nat.div_one]; exact hfuel)
    refine ⟨s2, hf, hl, ?_, ?_, ?_⟩
    · intro i h2 hi
      have hb := WF_byte_lt s.set hwf i hi
      have hm : marked_from 1 s.set.length (2 * 1) i :=
        (marked_from_two_mul _ _ _).2 ⟨hi, i, h2, by omega⟩
      unfold sieve_get
      rw [bitset_get_eq s2.set i (by omega) (by omega), hbit i]
      simp [hm]
    · have hm : ¬ marked_from 1 s.set.length (2 * 1) 0 := by
        unfold marked_from; omega
      unfold sieve_get
      exact bitset_get_congr s.set s2.set 0 hl hd (by rw [hbit 0]; simp [hm])
    · have hm : ¬ marked_from 1 s.set.length (2 * 1) 1 := by
        unfold marked_from; omega
      unfold sieve_get
      exact bitset_get_congr s.set s2.set 1 hl hd (by rw [hbit 1]; simp [hm])

/-- Witness for C6 as amended: a zeroed sieve of length 4. -/
theorem sieve_filter_below_two_witness :
    (⟨⟨4, [0]⟩⟩ : sieve_t).set.WF ∧
    ((∀ n, n < 2 → sieve_get ⟨⟨4, [0]⟩⟩ n = .ok true →
        ∀ fuel, sieve_filter fuel ⟨⟨4, [0]⟩⟩ n = .ok ⟨⟨4, [0]⟩⟩) ∧
    (sieve_get ⟨⟨4, [0]⟩⟩ 1 = .ok false → ∀ fuel, (⟨⟨4, [0]⟩⟩ : sieve_t).set.length ≤ fuel →
      ∃ s2, sieve_filter fuel ⟨⟨4, [0]⟩⟩ 1 = .ok s2 ∧
        bitset_len s2.set = bitset_len (⟨⟨4, [0]⟩⟩ : sieve_t).set ∧
        (∀ i, 2 ≤ i → i < (⟨⟨4, [0]⟩⟩ : sieve_t).set.length → sieve_get s2 i = .ok true) ∧
        sieve_get s2 0 = sieve_get ⟨⟨4, [0]⟩⟩ 0 ∧ sieve_get s2 1 = sieve_get ⟨⟨4, [0]⟩⟩ 1)) :=
  ⟨by decide, sieve_filter_below_two ⟨⟨4, [0]⟩⟩ (by decide)⟩

/-! ## Claims about iteration and the whole sieve -/

/-- C7, the code at the failing input: iterating an unfiltered, zeroed sieve of
length 10 yields 0 to 9, then also 10, and the call after that ends the process;
on a sieve of length 0 the first call reads outside the buffer. -/
theorem iterate_unfiltered_ten :
    iterate 12 12 ⟨bitset_new 10 (fun _ => 0)⟩ (sieve_iter ⟨bitset_new 10 (fun _ => 0)⟩)
      = ([0, 1, 2, 3, 4, 5, 6, 7, 8, 9, 10], .error .exit_failure) ∧
    sieve_iter_next 1 ⟨bitset_new 0 (fun _ => 0)⟩ (sieve_iter ⟨bitset_new 0 (fun _ => 0)⟩)
      = .error .out_of_buffer := by
  decide

/-- C8, the code at the failing input: on a sieve of length 1 whose index 0 is
marked, the first call of `sieve_iter_next` returns the end of the sequence and
sets `root_obj` to `NULL`; the second call dereferences that `NULL`. -/
theorem next_after_exhaustion :
    sieve_set ⟨bitset_new 1 (fun _ => 0)⟩ 0 true = .ok ⟨⟨1, [1]⟩⟩ ∧
    sieve_iter_next 1 ⟨⟨1, [1]⟩⟩ (sieve_iter ⟨⟨1, [1]⟩⟩) = .ok (none, ⟨0, none⟩) ∧
    sieve_iter_next 1 ⟨⟨1, [1]⟩⟩ ⟨0, none⟩ = .error .null_deref := by
  decide

/-- C9, the code at the failing input: a new sieve of length 3 whose byte comes
from `malloc` holding 4 has index 2 marked from the start; the driving loop
skips it and the prime 2 stays marked. -/
theorem run_sieve_uncleared :
    run_sieve 3 ⟨bitset_new 3 (fun _ => 4)⟩ 3 = .ok ⟨⟨3, [4]⟩⟩ ∧
    sieve_get ⟨⟨3, [4]⟩⟩ 2 = .ok true ∧ Nat.Prime 2 :=
  ⟨by decide, by decide, Nat.prime_two⟩

/-- C10, the code at the failing input: on a zeroed sieve of length 30 the
driving loop leaves the bytes 80, 215, 117, 31, and the iteration then yields
0, 1, 2, 3, 5, 7, 11, 13, 17, 19, 23, 29 and also 30, after which the next call
ends the process. -/
theorem sieve_thirty :
    run_sieve 15 ⟨bitset_new 30 (fun _ => 0)⟩ 30 = .ok ⟨⟨30, [80, 215, 117, 31]⟩⟩ ∧
    iterate 14 30 ⟨⟨30, [80, 215, 117, 31]⟩⟩ (sieve_iter ⟨⟨30, [80, 215, 117, 31]⟩⟩)
      = ([0, 1, 2, 3, 5, 7, 11, 13, 17, 19, 23, 29, 30], .error .exit_failure) := by
  refine ⟨by decide!, by decide!⟩

/-! ## Storage layout and size -/

theorem bitset_get_ok_inv (b : bitset) (i : Nat) (v : Bool) (h : bitset_get b i = .ok v) :
    i ≤ b.length ∧ i / 8 < b.data.length := by
  unfold bitset_get check_index at h
  by_cases hi : i > b.length
  · simp [hi] at h
  · simp only [hi, if_false, shiftRight_three] at h
    by_cases hb : i / 8 < b.data.length
    · exact ⟨by omega, hb⟩
    · rw [List.getElem?_eq_none (by omega)] at h
      simp at h

theorem bitset_get_ne_fuel (b : bitset) (i : Nat) : bitset_get b i ≠ .error .out_of_fuel := by
  unfold bitset_get check_index
  by_cases hi : i > b.length
  · simp [hi]
  · simp only [hi, if_false]
    cases b.data[i >>> 3]? <;> simp

/-- C13: bit layout. On a bitset that satisfies the storage invariant and for
an index `i` below the length, `bitset_get` returns bit `i % 8` (counted from
the least significant bit) of byte `i / 8`; and `bitset_set` returns normally
with a buffer of the same size in which every byte other than byte `i / 8` is
unchanged, byte `i / 8` is still a byte, its bit `i % 8` is the value written
and its other seven bits are unchanged. -/
theorem bit_layout (b : bitset) (i : Nat) (v : Bool) (hwf : b.WF) (hi : i < b.length) :
    ∃ byte, b.data[i / 8]? = some byte ∧
      bitset_get b i = .ok (byte.testBit (i % 8)) ∧
      ∃ b2 byte2, bitset_set b i v = .ok b2 ∧ b2.data.length = b.data.length ∧
        (∀ k, k ≠ i / 8 → b2.data[k]? = b.data[k]?) ∧
        b2.data[i / 8]? = some byte2 ∧ byte2 < 256 ∧ byte2.testBit (i % 8) = v ∧
        ∀ m, m < 8 → m ≠ i % 8 → byte2.testBit m = byte.testBit m := by
  have hb := WF_byte_lt b hwf i hi
  have hc : check_index b i = .ok () := by
    unfold check_index; rw [if_neg (by omega)]
  have hi8 : i % 8 < 8 := Nat.mod_lt _ (by decide)
  have hsome : b.data[i / 8]? = some (b.data[i / 8]) := List.getElem?_eq_getElem hb
  refine ⟨b.data[i / 8], hsome, ?_, ?_⟩
  · unfold bitset_get
    simp only [hc, shiftRight_three, land_seven, testBit_eq, hsome]
  · unfold bitset_set
    simp only [hc, shiftRight_three, land_seven, hsome]
    cases v
    · refine ⟨_, (b.data[i / 8] &&& ((1 <<< (i % 8)) % 256 ^^^ 0xFFFFFFFF)) % 256, rfl,
        by simp, ?_, by simp [List.getElem?_set_self, hb], Nat.mod_lt _ (by decide), ?_, ?_⟩
      · intro k hk
        simp [List.getElem?_set_ne (Ne.symm hk)]
      · rw [testBit_store_false _ _ _ hi8 hi8]; simp
      · intro m hm hne
        rw [testBit_store_false _ _ _ hi8 hm]; simp [hne]
    · refine ⟨_, (b.data[i / 8] ||| (1 <<< (i % 8)) % 256) % 256, rfl,
        by simp, ?_, by simp [List.getElem?_set_self, hb], Nat.mod_lt _ (by decide), ?_, ?_⟩
      · intro k hk
        simp [List.getElem?_set_ne (Ne.symm hk)]
      · rw [testBit_store_true _ _ _ hi8 hi8]; simp
      · intro m hm hne
        rw [testBit_store_true _ _ _ hi8 hm]; simp [hne]

/-- Witness for C13: index 9 of the bitset of length 10 with bytes 0 and 253. -/
theorem bit_layout_witness :
    (⟨10, [0, 253]⟩ : bitset).WF ∧ 9 < (⟨10, [0, 253]⟩ : bitset).length ∧
    ∃ byte, (⟨10, [0, 253]⟩ : bitset).data[9 / 8]? = some byte ∧
      bitset_get ⟨10, [0, 253]⟩ 9 = .ok (byte.testBit (9 % 8)) ∧
      ∃ b2 byte2, bitset_set ⟨10, [0, 253]⟩ 9 true = .ok b2 ∧
        b2.data.length = (⟨10, [0, 253]⟩ : bitset).data.length ∧
        (∀ k, k ≠ 9 / 8 → b2.data[k]? = (⟨10, [0, 253]⟩ : bitset).data[k]?) ∧
        b2.data[9 / 8]? = some byte2 ∧ byte2 < 256 ∧ byte2.testBit (9 % 8) = true ∧
        ∀ m, m < 8 → m ≠ 9 % 8 → byte2.testBit m = byte.testBit m :=
  ⟨by decide, by decide, bit_layout ⟨10, [0, 253]⟩ 9 true (by decide) (by decide)⟩

/-- C14, the code at the failing input: for the `size_t` value `2 ^ 64 - 1` the
sum `length + 7` wraps, so `bitset_new` allocates 0 bytes where `⌈length / 8⌉` is
`2 ^ 61`, and `bitset_get` at index 0 of the new bitset reads outside the buffer. -/
theorem bitset_new_size_wraps :
    (bitset_new (2 ^ 64 - 1) (fun _ => 0)).data.length = 0 ∧
    (2 ^ 64 - 1 + 7) / 8 = 2 ^ 61 ∧
    0 < (bitset_new (2 ^ 64 - 1) (fun _ => 0)).length ∧
    bitset_get (bitset_new (2 ^ 64 - 1) (fun _ => 0)) 0 = .error .out_of_buffer := by
  decide

/-- Below the wrap the size is right: for `length + 7 < 2 ^ 64` the buffer of
`bitset_new` holds `⌈length / 8⌉` bytes and every index below the length has its
byte inside the buffer. -/
theorem bitset_new_size (length : Nat) (junk : Nat → Nat) (h : length + 7 < SIZE_MOD) :
    (bitset_new length junk).data.length = (length + 7) / 8 ∧
    ∀ i, i < length → i >>> 3 < (bitset_new length junk).data.length := by
  have hwf := bitset_new_WF length junk h
  refine ⟨hwf.2, ?_⟩
  intro i hi
  rw [shiftRight_three]
  exact WF_byte_lt _ hwf i hi

/-! ## One step of the iterator -/

theorem PyLong_FromLong_small (i : Nat) (h : i < 2 ^ 63) : PyLong_FromLong i = (i : Int) := by
  have hM : SIZE_MOD = 2 ^ 64 := rfl
  unfold PyLong_FromLong
  rw [Nat.mod_eq_of_lt (by omega), if_pos h]

theorem sieve_iter_next_loop_range (b : bitset) (hL : b.length < 2 ^ 63) :
    ∀ (fuel c i : Nat), sieve_iter_next_loop fuel b b.length c = .ok (some i) →
      c ≤ i ∧ i ≤ b.length := by
  have hM : SIZE_MOD = 2 ^ 64 := rfl
  intro fuel
  induction fuel with
  | zero =>
    intro c i h
    unfold sieve_iter_next_loop at h
    cases hg : bitset_get b c with
    | error e => simp [hg] at h
    | ok v =>
      have hc := (bitset_get_ok_inv b c v hg).1
      cases v
      · simp only [hg, Except.ok.injEq, Option.some.injEq] at h
        omega
      · simp only [hg, Nat.mod_eq_of_lt (show c + 1 < SIZE_MOD by omega)] at h
        by_cases hge : c + 1 ≥ b.length
        · simp [hge] at h
        · simp [hge] at h
  | succ fuel ih =>
    intro c i h
    unfold sieve_iter_next_loop at h
    cases hg : bitset_get b c with
    | error e => simp [hg] at h
    | ok v =>
      have hc := (bitset_get_ok_inv b c v hg).1
      cases v
      · simp only [hg, Except.ok.injEq, Option.some.injEq] at h
        omega
      · simp only [hg, Nat.mod_eq_of_lt (show c + 1 < SIZE_MOD by omega)] at h
        by_cases hge : c + 1 ≥ b.length
        · simp [hge] at h
        · simp only [hge, if_false] at h
          have := ih (c + 1) i h
          omega

theorem sieve_iter_next_loop_scan (b : bitset) (hwf : b.WF) (hL : b.length ≤ 2 ^ 63) :
    ∀ (fuel c : Nat), c < b.length → b.length ≤ c + fuel + 1 →
      ((∀ k, c ≤ k → k < b.length → b.bit k = true) →
        sieve_iter_next_loop fuel b b.length c = .ok none) ∧
      (∀ i, c ≤ i → i < b.length → b.bit i = false →
        (∀ k, c ≤ k → k < i → b.bit k = true) →
        sieve_iter_next_loop fuel b b.length c = .ok (some i)) := by
  have hM : SIZE_MOD = 2 ^ 64 := rfl
  intro fuel
  induction fuel with
  | zero =>
    intro c hc hf
    have hg : bitset_get b c = .ok (b.bit c) :=
      bitset_get_eq b c (by omega) (WF_byte_lt b hwf c hc)
    have hw : (c + 1) % SIZE_MOD = c + 1 := Nat.mod_eq_of_lt (by omega)
    refine ⟨?_, ?_⟩
    · intro hall
      have hbc := hall c (le_refl _) hc
      unfold sieve_iter_next_loop
      rw [hbc] at hg
      simp only [hg, hw]
      rw [if_pos (by omega)]
    · intro i hci hi hbi _
      have hic : i = c := by omega
      subst hic
      unfold sieve_iter_next_loop
      rw [hbi] at hg
      simp only [hg]
  | succ fuel ih =>
    intro c hc hf
    have hg : bitset_get b c = .ok (b.bit c) :=
      bitset_get_eq b c (by omega) (WF_byte_lt b hwf c hc)
    have hw : (c + 1) % SIZE_MOD = c + 1 := Nat.mod_eq_of_lt (by omega)
    refine ⟨?_, ?_⟩
    · intro hall
      have hbc := hall c (le_refl _) hc
      unfold sieve_iter_next_loop
      rw [hbc] at hg
      simp only [hg, hw]
      by_cases hge : c + 1 ≥ b.length
      · rw [if_pos hge]
      · rw [if_neg hge]
        exact (ih (c + 1) (by omega) (by omega)).1
          (fun k hk hkL => hall k (by omega) hkL)
    · intro i hci hi hbi hbefore
      by_cases hic : i = c
      · subst hic
        unfold sieve_iter_next_loop
        rw [hbi] at hg
        simp only [hg]
      · have hbc := hbefore c (le_refl _) (by omega)
        unfold sieve_iter_next_loop
        rw [hbc] at hg
        simp only [hg, hw]
        rw [if_neg (by omega)]
        exact (ih (c + 1) (by omega) (by omega)).2 i (by omega) hi hbi
          (fun k hk hki => hbefore k (by omega) hki)

/-- Below the length one call of `sieve_iter_next` does what a scan should: on
a sieve with the storage invariant and length `L ≤ 2 ^ 63`, for an iterator that
still points to the sieve and whose index `c` is below `L`, given fuel `L`, the
call returns the least unmarked index `i` of `[c, L)` and leaves the index at
`i + 1`, or, when every index of `[c, L)` is marked, returns the end of the
sequence and sets `root_obj` to `NULL`. -/
theorem sieve_iter_next_below_length (fuel : Nat) (root : sieve_t) (it : sieve_iter_t)
    (hwf : root.set.WF) (hL : root.set.length ≤ 2 ^ 63) (hact : it.root_obj = some ())
    (hc : it.index < root.set.length) (hfuel : root.set.length ≤ fuel) :
    (∀ i, it.index ≤ i → i < root.set.length → sieve_get root i = .ok false →
      (∀ k, it.index ≤ k → k < i → sieve_get root k = .ok true) →
      sieve_iter_next fuel root it
        = .ok (some (i : Int), { index := i + 1, root_obj := some () })) ∧
    ((∀ k, it.index ≤ k → k < root.set.length → sieve_get root k = .ok true) →
      sieve_iter_next fuel root it = .ok (none, { index := it.index, root_obj := none })) := by
  have hM : SIZE_MOD = 2 ^ 64 := rfl
  have hbit : ∀ k v, k < root.set.length → sieve_get root k = .ok v → root.set.bit k = v := by
    intro k v hk hg
    unfold sieve_get at hg
    rw [bitset_get_eq root.set k (by omega) (WF_byte_lt root.set hwf k hk)] at hg
    exact Except.ok.inj hg
  have hscan := sieve_iter_next_loop_scan root.set hwf hL fuel it.index hc (by omega)
  refine ⟨?_, ?_⟩
  · intro i hci hi hgi hbefore
    have hloop := hscan.2 i hci hi (hbit i false hi hgi)
      (fun k hk hki => hbit k true (by omega) (hbefore k hk hki))
    unfold sieve_iter_next
    simp only [hact, bitset_len, hloop, PyLong_FromLong_small i (by omega),
      Nat.mod_eq_of_lt (show i + 1 < SIZE_MOD by omega)]
  · intro hall
    have hloop := hscan.1 (fun k hk hkL => hbit k true hkL (hall k hk hkL))
    unfold sieve_iter_next
    simp only [hact, bitset_len, hloop]

/-- C11, the code at the failing input: on a zeroed sieve of length 1 the first
call returns 0 and leaves the index at 1, the length; the next call, with no
unmarked index left in `[1, 1)`, returns 1 instead of the end of the sequence.
On a zeroed sieve of length 8 an iterator at index 8 reads outside the buffer. -/
theorem next_at_length :
    sieve_iter_next 1 ⟨bitset_new 1 (fun _ => 0)⟩ (sieve_iter ⟨bitset_new 1 (fun _ => 0)⟩)
      = .ok (some 0, ⟨1, some ()⟩) ∧
    sieve_iter_next 1 ⟨bitset_new 1 (fun _ => 0)⟩ ⟨1, some ()⟩
      = .ok (some 1, ⟨2, some ()⟩) ∧
    sieve_iter_next 1 ⟨bitset_new 8 (fun _ => 0)⟩ ⟨8, some ()⟩ = .error .out_of_buffer := by
  decide

/-- C12, the code at the failing input: on a zeroed sieve of length 3 the loop of
`sieve_iter_next` entered at index 3 passes 3 to `bitset_get` and leaves with it;
the iteration returns 0, 1, 2 and then 3, which is not below the length, and the
call after that reaches `exit` in `check_index`. -/
theorem iterate_past_length :
    bitset_get (bitset_new 3 (fun _ => 0)) 3 = .ok false ∧
    sieve_iter_next_loop 3 (bitset_new 3 (fun _ => 0)) 3 3 = .ok (some 3) ∧
    iterate 5 3 ⟨bitset_new 3 (fun _ => 0)⟩ (sieve_iter ⟨bitset_new 3 (fun _ => 0)⟩)
      = ([0, 1, 2, 3], .error .exit_failure) := by
  decide

/-! ## Cursor monotonicity -/

theorem sieve_iter_next_step (fuel : Nat) (root : sieve_t) (it it2 : sieve_iter_t)
    (r : Option Int) (hL : root.set.length < 2 ^ 63)
    (h : sieve_iter_next fuel root it = .ok (r, it2)) :
    it.index ≤ it2.index ∧
      ∀ v, r = some v → (it.index : Int) ≤ v ∧ (it2.index : Int) = v + 1 := by
  have hM : SIZE_MOD = 2 ^ 64 := rfl
  unfold sieve_iter_next at h
  cases hr : it.root_obj with
  | none => simp [hr] at h
  | some u =>
    simp only [hr, bitset_len] at h
    cases hl : sieve_iter_next_loop fuel root.set root.set.length it.index with
    | error e => simp [hl] at h
    | ok res =>
      cases res with
      | none =>
        simp only [hl, Except.ok.injEq, Prod.mk.injEq] at h
        obtain ⟨h1, h2⟩ := h
        subst h1
        subst h2
        exact ⟨le_refl _, fun v hv => by cases hv⟩
      | some i =>
        have hrange := sieve_iter_next_loop_range root.set hL fuel it.index i hl
        simp only [hl, Except.ok.injEq, Prod.mk.injEq] at h
        obtain ⟨h1, h2⟩ := h
        subst h1
        subst h2
        rw [PyLong_FromLong_small i (by omega)]
        simp only [Nat.mod_eq_of_lt (show i + 1 < SIZE_MOD by omega)]
        refine ⟨by omega, ?_⟩
        intro v hv
        have hvi : (i : Int) = v := Option.some.inj hv
        subst hvi
        exact ⟨by exact_mod_cast hrange.1, by push_cast; rfl⟩

theorem next_calls_increasing (fuel : Nat) :
    ∀ (roots : List sieve_t) (it : sieve_iter_t), (∀ s ∈ roots, s.set.length < 2 ^ 63) →
      (∀ v ∈ next_calls fuel roots it, (it.index : Int) ≤ v) ∧
      (next_calls fuel roots it).Pairwise (fun v w => v < w) := by
  intro roots
  induction roots with
  | nil =>
    intro it _
    unfold next_calls
    exact ⟨by simp, List.Pairwise.nil⟩
  | cons root roots ih =>
    intro it hlen
    have hroot := hlen root (List.mem_cons_self _ _)
    have hrest : ∀ s ∈ roots, s.set.length < 2 ^ 63 :=
      fun s hs => hlen s (List.mem_cons_of_mem _ hs)
    unfold next_calls
    cases hn : sieve_iter_next fuel root it with
    | error e => exact ⟨by simp, List.Pairwise.nil⟩
    | ok res =>
      obtain ⟨r, it2⟩ := res
      have hstep := sieve_iter_next_step fuel root it it2 r hroot hn
      obtain ⟨ih1, ih2⟩ := ih it2 hrest
      cases r with
      | none =>
        refine ⟨?_, ih2⟩
        intro v hv
        have := ih1 v hv
        have hle : (it.index : Int) ≤ (it2.index : Int) := by exact_mod_cast hstep.1
        exact le_trans hle this
      | some v =>
        obtain ⟨hv1, hv2⟩ := hstep.2 v rfl
        refine ⟨?_, ?_⟩
        · intro w hw
          rcases List.mem_cons.1 hw with rfl | hw
          · exact hv1
          · have := ih1 w hw
            omega
        · refine List.Pairwise.cons ?_ ih2
          intro w hw
          have := ih1 w hw
          omega

/-- C15: cursor monotonicity. For sieve states of length below `2 ^ 63`, one
call of `sieve_iter_next` that returns never lowers the index of the iterator,
and a returned value is at least the index before the call and one less than
the index after it; so the values returned by successive calls on one
iterator, with the sieve in an arbitrary state at each call, are strictly
increasing. -/
theorem cursor_monotone (fuel : Nat) (root : sieve_t) (roots : List sieve_t)
    (it : sieve_iter_t) (hroot : root.set.length < 2 ^ 63)
    (hroots : ∀ s ∈ roots, s.set.length < 2 ^ 63) :
    (∀ r it2, sieve_iter_next fuel root it = .ok (r, it2) →
      it.index ≤ it2.index ∧
        ∀ v, r = some v → (it.index : Int) ≤ v ∧ (it2.index : Int) = v + 1) ∧
    (next_calls fuel (root :: roots) it).Pairwise (fun v w => v < w) := by
  refine ⟨?_, ?_⟩
  · intro r it2 h
    exact sieve_iter_next_step fuel root it it2 r hroot h
  · refine (next_calls_increasing fuel (root :: roots) it ?_).2
    intro s hs
    rcases List.mem_cons.1 hs with rfl | hs
    · exact hroot
    · exact hroots s hs

/-- Witness for C15: three calls on a sieve of length 10 that is changed between
the calls. -/
theorem cursor_monotone_witness :
    (⟨⟨10, [0, 0]⟩⟩ : sieve_t).set.length < 2 ^ 63 ∧
    (∀ s ∈ [(⟨⟨10, [6, 0]⟩⟩ : sieve_t), ⟨⟨10, [0, 0]⟩⟩], s.set.length < 2 ^ 63) ∧
    ((∀ r it2, sieve_iter_next 10 ⟨⟨10, [0, 0]⟩⟩ ⟨0, some ()⟩ = .ok (r, it2) →
      (⟨0, some ()⟩ : sieve_iter_t).index ≤ it2.index ∧
        ∀ v, r = some v →
          (((⟨0, some ()⟩ : sieve_iter_t).index : Nat) : Int) ≤ v ∧ (it2.index : Int) = v + 1) ∧
    (next_calls 10 [⟨⟨10, [0, 0]⟩⟩, ⟨⟨10, [6, 0]⟩⟩, ⟨⟨10, [0, 0]⟩⟩] ⟨0, some ()⟩).Pairwise
      (fun v w => v < w)) :=
  ⟨by decide, by decide,
    cursor_monotone 10 ⟨⟨10, [0, 0]⟩⟩ [⟨⟨10, [6, 0]⟩⟩, ⟨⟨10, [0, 0]⟩⟩] ⟨0, some ()⟩
      (by decide) (by decide)⟩

/-! ## Termination of `sieve_filter` -/

/-- C16: filter termination. On a sieve with the storage invariant and length
`L ≤ 2 ^ 63`, for every `n ≥ 2`, `sieve_filter` given fuel for `L / n` executions
of the body of its marking loop (one `bitset_set` each) does not run out of
fuel; and for `n < L` it returns normally. -/
theorem sieve_filter_terminates (fuel : Nat) (s : sieve_t) (n : Nat) (hwf : s.set.WF)
    (hL : s.set.length ≤ 2 ^ 63) (h2 : 2 ≤ n) (hfuel : s.set.length / n ≤ fuel) :
    sieve_filter fuel s n ≠ .error .out_of_fuel ∧
      (n < s.set.length → ∃ s2, sieve_filter fuel s n = .ok s2) := by
  have hM : SIZE_MOD = 2 ^ 64 := rfl
  cases hg : bitset_get s.set n with
  | error e =>
    have hne : e ≠ .out_of_fuel := by
      intro he
      rw [he] at hg
      exact bitset_get_ne_fuel s.set n hg
    refine ⟨?_, ?_⟩
    · unfold sieve_filter
      simp only [hg]
      intro h
      exact hne (Except.error.inj h)
    · intro hn
      rw [bitset_get_eq s.set n (by omega) (WF_byte_lt s.set hwf n hn)] at hg
      cases hg
  | ok v =>
    cases v with
    | true =>
      have hf : sieve_filter fuel s n = .ok s := by
        unfold sieve_filter
        simp only [hg]
      rw [hf]
      exact ⟨by simp, fun _ => ⟨s, rfl⟩⟩
    | false =>
      obtain ⟨hnL, hnb⟩ := bitset_get_ok_inv s.set n false hg
      rw [hwf.2] at hnb
      obtain ⟨s2, hf, _⟩ :=
        sieve_filter_spec fuel s n hwf (by omega) (by omega) (by omega) hg hfuel
      rw [hf]
      exact ⟨by simp, fun _ => ⟨s2, rfl⟩⟩

/-- Witness for C16: `sieve_filter` at 3 on a zeroed sieve of length 10 with fuel 3. -/
theorem sieve_filter_terminates_witness :
    (⟨⟨10, [0, 0]⟩⟩ : sieve_t).set.WF ∧ (⟨⟨10, [0, 0]⟩⟩ : sieve_t).set.length ≤ 2 ^ 63 ∧
    2 ≤ 3 ∧ (⟨⟨10, [0, 0]⟩⟩ : sieve_t).set.length / 3 ≤ 3 ∧
    (sieve_filter 3 ⟨⟨10, [0, 0]⟩⟩ 3 ≠ .error .out_of_fuel ∧
      (3 < (⟨⟨10, [0, 0]⟩⟩ : sieve_t).set.length →
        ∃ s2, sieve_filter 3 ⟨⟨10, [0, 0]⟩⟩ 3 = .ok s2)) :=
  ⟨by decide, by decide, by decide, by decide,
    sieve_filter_terminates 3 ⟨⟨10, [0, 0]⟩⟩ 3 (by decide) (by decide) (by decide) (by decide)⟩

/-! ## Sequences of filter rounds -/

theorem sieve_filter_bits (fuel : Nat) (s : sieve_t) (n : Nat) (hwf : s.set.WF)
    (hL : s.set.length ≤ 2 ^ 63) (hn1 : 1 ≤ n) (hn : n < s.set.length)
    (hfuel : s.set.length / n ≤ fuel) :
    ∃ s2, sieve_filter fuel s n = .ok s2 ∧ s2.set.length = s.set.length ∧
      s2.set.data.length = s.set.data.length ∧
      ∀ j, s2.set.bit j =
        (s.set.bit j || (!s.set.bit n && decide (marked_from n s.set.length (2 * n) j))) := by
  have hM : SIZE_MOD = 2 ^ 64 := rfl
  have hg : sieve_get s n = .ok (s.set.bit n) := by
    unfold sieve_get
    exact bitset_get_eq s.set n (by omega) (WF_byte_lt s.set hwf n hn)
  cases hb : s.set.bit n with
  | true =>
    rw [hb] at hg
    refine ⟨s, ?_, rfl, rfl, by simp⟩
    unfold sieve_filter
    unfold sieve_get at hg
    simp only [hg]
  | false =>
    rw [hb] at hg
    obtain ⟨s2, hf, hl, hd, hbit⟩ :=
      sieve_filter_spec fuel s n hwf hn1 (by omega) (by omega) hg hfuel
    exact ⟨s2, hf, hl, hd, fun j => by rw [hbit j]; simp⟩

theorem apply_filters_sound (L fuel : Nat) (hL : L ≤ 2 ^ 63) (hfuel : L / 2 ≤ fuel) :
    ∀ (ns : List Nat) (s : sieve_t), (∀ n ∈ ns, 2 ≤ n ∧ n < L) → s.set.WF →
      s.set.length = L →
      (∀ j, s.set.bit j = true → j < L ∧ ∃ a b, 2 ≤ a ∧ 2 ≤ b ∧ j = a * b) →
      ∃ s2, apply_filters fuel s ns = .ok s2 ∧ s2.set.WF ∧ s2.set.length = L ∧
        ∀ j, s2.set.bit j = true → j < L ∧ ∃ a b, 2 ≤ a ∧ 2 ≤ b ∧ j = a * b := by
  intro ns
  induction ns with
  | nil =>
    intro s _ hwf hl hinv
    exact ⟨s, by unfold apply_filters; rfl, hwf, hl, hinv⟩
  | cons n ns ih =>
    intro s hns hwf hl hinv
    obtain ⟨hn2, hnL⟩ := hns n (List.mem_cons_self _ _)
    have hfu : s.set.length / n ≤ fuel := by
      rw [hl]
      exact le_trans (Nat.div_le_div_left hn2 (by decide)) hfuel
    obtain ⟨s1, hf, hl1, hd1, hbit1⟩ :=
      sieve_filter_bits fuel s n hwf (by omega) (by omega) (by omega) hfu
    have hwf1 : s1.set.WF := WF_of_lengths s.set s1.set hwf hl1 hd1
    have hinv1 : ∀ j, s1.set.bit j = true → j < L ∧ ∃ a b, 2 ≤ a ∧ 2 ≤ b ∧ j = a * b := by
      intro j hj
      rw [hbit1 j, Bool.or_eq_true, Bool.and_eq_true, decide_eq_true_eq] at hj
      rcases hj with hj | ⟨_, hm⟩
      · exact hinv j hj
      · obtain ⟨hjL, k, hk, hjk⟩ := (marked_from_two_mul _ _ _).1 hm
        exact ⟨by omega, k, n, hk, hn2, hjk⟩
    obtain ⟨s2, hap, hrest⟩ :=
      ih s1 (fun m hm => hns m (List.mem_cons_of_mem _ hm)) hwf1 (by omega) hinv1
    refine ⟨s2, ?_, hrest⟩
    unfold apply_filters
    simp only [hf]
    exact hap

/-- On cleared storage marked means composite: for `L ≤ 2 ^ 63` and fuel `L / 2`,
any sequence of `sieve_filter` calls with arguments `n`, `2 ≤ n < L`, on a zeroed
bitset of length `L` returns normally, and every index below `L` that then reads
`true` is a product of two numbers that are at least 2. -/
theorem apply_filters_zeroed (L fuel : Nat) (ns : List Nat) (hL : L ≤ 2 ^ 63)
    (hfuel : L / 2 ≤ fuel) (hns : ∀ n ∈ ns, 2 ≤ n ∧ n < L) :
    ∃ s2, apply_filters fuel ⟨bitset_new L (fun _ => 0)⟩ ns = .ok s2 ∧
      ∀ i, i < L → sieve_get s2 i = .ok true → ∃ a b, 2 ≤ a ∧ 2 ≤ b ∧ i = a * b := by
  have hM : SIZE_MOD = 2 ^ 64 := rfl
  have hwf : (bitset_new L (fun _ => 0)).WF := bitset_new_WF L _ (by omega)
  obtain ⟨s2, hap, hwf2, hl2, hinv⟩ :=
    apply_filters_sound L fuel hL hfuel ns ⟨bitset_new L (fun _ => 0)⟩ hns hwf rfl
      (by intro j hj; rw [bitset_new_zero_bit] at hj; cases hj)
  refine ⟨s2, hap, ?_⟩
  intro i hi hg
  unfold sieve_get at hg
  rw [bitset_get_eq s2.set i (by omega) (WF_byte_lt s2.set hwf2 i (by omega))] at hg
  exact (hinv i (Except.ok.inj hg)).2

/-- C17, the code at the failing input: a new sieve of length 6 whose byte comes
from `malloc` holding 8 has index 3 marked before any filter round; after the
rounds for 2 and 3 index 3 still reads `true`, and 3 is prime, not a product of
two numbers that are at least 2. -/
theorem filters_on_uncleared :
    sieve_get ⟨bitset_new 6 (fun _ => 8)⟩ 3 = .ok true ∧
    apply_filters 3 ⟨bitset_new 6 (fun _ => 8)⟩ [2, 3] = .ok ⟨⟨6, [24]⟩⟩ ∧
    sieve_get ⟨⟨6, [24]⟩⟩ 3 = .ok true ∧ Nat.Prime 3 :=
  ⟨by decide, by decide, by decide, Nat.prime_three⟩

/-! ## Filter rounds commute -/

theorem marked_from_trans (a b L j : Nat)
    (hab : marked_from a L (2 * a) b) (hbj : marked_from b L (2 * b) j) :
    marked_from a L (2 * a) j := by
  rw [marked_from_two_mul] at *
  obtain ⟨_, k, hk, rfl⟩ := hab
  obtain ⟨hj, m, hm, rfl⟩ := hbj
  refine ⟨hj, m * k, ?_, by ring⟩
  have : 2 * 2 ≤ m * k := Nat.mul_le_mul hm hk
  omega

theorem bitset_set_bytes (b b2 : bitset) (i : Nat) (v : Bool)
    (hbytes : ∀ x ∈ b.data, x < 256) (h : bitset_set b i v = .ok b2) :
    ∀ x ∈ b2.data, x < 256 := by
  unfold bitset_set at h
  cases hc : check_index b i with
  | error e => simp [hc] at h
  | ok u =>
    simp only [hc] at h
    cases hd : b.data[i >>> 3]? with
    | none => simp [hd] at h
    | some byte =>
      simp only [hd] at h
      cases v
      · simp at h
        subst h
        intro x hx
        rcases List.mem_or_eq_of_mem_set hx with hx | rfl
        · exact hbytes x hx
        · exact Nat.mod_lt _ (by decide)
      · simp at h
        subst h
        intro x hx
        rcases List.mem_or_eq_of_mem_set hx with hx | rfl
        · exact hbytes x hx
        · exact Nat.mod_lt _ (by decide)

theorem sieve_filter_loop_bytes (n L : Nat) :
    ∀ (fuel : Nat) (b b2 : bitset) (i : Nat), (∀ x ∈ b.data, x < 256) →
      sieve_filter_loop fuel b n L i = .ok b2 → ∀ x ∈ b2.data, x < 256 := by
  intro fuel
  induction fuel with
  | zero =>
    intro b b2 i hbytes h
    unfold sieve_filter_loop at h
    by_cases hi : i < L
    · simp [hi] at h
    · simp only [hi, if_false, Except.ok.injEq] at h
      subst h
      exact hbytes
  | succ fuel ih =>
    intro b b2 i hbytes h
    unfold sieve_filter_loop at h
    by_cases hi : i < L
    · simp only [hi, if_true] at h
      cases hs : bitset_set b i true with
      | error e => simp [hs] at h
      | ok b1 =>
        simp only [hs] at h
        exact ih b1 b2 _ (bitset_set_bytes b b1 i true hbytes hs) h
    · simp only [hi, if_false, Except.ok.injEq] at h
      subst h
      exact hbytes

theorem sieve_filter_bytes (fuel : Nat) (s s2 : sieve_t) (n : Nat)
    (hbytes : ∀ x ∈ s.set.data, x < 256) (h : sieve_filter fuel s n = .ok s2) :
    ∀ x ∈ s2.set.data, x < 256 := by
  unfold sieve_filter at h
  cases hg : bitset_get s.set n with
  | error e => simp [hg] at h
  | ok v =>
    cases v with
    | true =>
      simp only [hg, Except.ok.injEq] at h
      subst h
      exact hbytes
    | false =>
      simp only [hg] at h
      cases hl : sieve_filter_loop fuel s.set n (bitset_len s.set) (2 * n % SIZE_MOD) with
      | error e => simp [hl] at h
      | ok b2 =>
        simp only [hl, Except.ok.injEq] at h
        subst h
        exact sieve_filter_loop_bytes n _ fuel s.set b2 _ hbytes hl

theorem bitset_ext_bits (b1 b2 : bitset) (hl : b1.length = b2.length)
    (hd : b1.data.length = b2.data.length) (h1 : ∀ x ∈ b1.data, x < 256)
    (h2 : ∀ x ∈ b2.data, x < 256) (hbit : ∀ j, b1.bit j = b2.bit j) : b1 = b2 := by
  have hdata : b1.data = b2.data := by
    apply List.ext_getElem hd
    intro k hk1 hk2
    apply Nat.eq_of_testBit_eq
    intro m
    by_cases hm : m < 8
    · have h := hbit (8 * k + m)
      unfold bitset.bit at h
      have hq : (8 * k + m) / 8 = k := by omega
      have hr : (8 * k + m) % 8 = m := by omega
      rw [hq, hr] at h
      simpa [List.getD_eq_getElem?_getD, List.getElem?_eq_getElem hk1,
        List.getElem?_eq_getElem hk2] using h
    · have hp : (256 : Nat) ≤ 2 ^ m := by
        have : (2 : Nat) ^ 8 ≤ 2 ^ m := Nat.pow_le_pow_right (by decide) (by omega)
        simpa using this
      have hx1 : b1.data[k] < 2 ^ m :=
        lt_of_lt_of_le (h1 _ (List.getElem_mem hk1)) hp
      have hx2 : b2.data[k] < 2 ^ m :=
        lt_of_lt_of_le (h2 _ (List.getElem_mem hk2)) hp
      rw [Nat.testBit_lt_two_pow hx1, Nat.testBit_lt_two_pow hx2]
  cases b1
  cases b2
  simp only at hl hdata
  subst hl
  subst hdata
  rfl

/-- C18: filter rounds commute. On a sieve with the storage invariant and length
`L ≤ 2 ^ 63`, in any state, for `2 ≤ a, b < L` and fuel `L / 2`, both orders of
the two `sieve_filter` calls return normally, the two results have the same
length and read the same at every index, and when the stored bytes are bytes
(below 256) the two results are equal. -/
theorem sieve_filter_commute (fuel : Nat) (s : sieve_t) (a b : Nat) (hwf : s.set.WF)
    (hL : s.set.length ≤ 2 ^ 63) (ha2 : 2 ≤ a) (haL : a < s.set.length) (hb2 : 2 ≤ b)
    (hbL : b < s.set.length) (hfuel : s.set.length / 2 ≤ fuel) :
    ∃ sa sab sb sba, sieve_filter fuel s a = .ok sa ∧ sieve_filter fuel sa b = .ok sab ∧
      sieve_filter fuel s b = .ok sb ∧ sieve_filter fuel sb a = .ok sba ∧
      bitset_len sab.set = bitset_len sba.set ∧
      (∀ j, sieve_get sab j = sieve_get sba j) ∧
      ((∀ x ∈ s.set.data, x < 256) → sab = sba) := by
  have hfa : s.set.length / a ≤ fuel := le_trans (Nat.div_le_div_left ha2 (by decide)) hfuel
  have hfb : s.set.length / b ≤ fuel := le_trans (Nat.div_le_div_left hb2 (by decide)) hfuel
  obtain ⟨sa, hsa, hla, hda, hbita⟩ :=
    sieve_filter_bits fuel s a hwf hL (by omega) haL hfa
  have hwfa : sa.set.WF := WF_of_lengths s.set sa.set hwf hla hda
  obtain ⟨sab, hsab, hlab, hdab, hbitab⟩ :=
    sieve_filter_bits fuel sa b hwfa (by omega) (by omega) (by omega) (by rw [hla]; exact hfb)
  obtain ⟨sb, hsb, hlb, hdb, hbitb⟩ :=
    sieve_filter_bits fuel s b hwf hL (by omega) hbL hfb
  have hwfb : sb.set.WF := WF_of_lengths s.set sb.set hwf hlb hdb
  obtain ⟨sba, hsba, hlba, hdba, hbitba⟩ :=
    sieve_filter_bits fuel sb a hwfb (by omega) (by omega) (by omega) (by rw [hlb]; exact hfa)
  have hlen : sab.set.length = sba.set.length := by omega
  have hdlen : sab.set.data.length = sba.set.data.length := by omega
  have hbits : ∀ j, sab.set.bit j = sba.set.bit j := by
    intro j
    rw [hbitab j, hbitba j, hbita j, hbita b, hbitb j, hbitb a, hla, hlb]
    have t1 := marked_from_trans a b s.set.length j
    have t2 := marked_from_trans b a s.set.length j
    by_cases hMa : marked_from a s.set.length (2 * a) j <;>
    by_cases hMb : marked_from b s.set.length (2 * b) j <;>
    by_cases hMab : marked_from a s.set.length (2 * a) b <;>
    by_cases hMba : marked_from b s.set.length (2 * b) a <;>
    cases s.set.bit j <;> cases s.set.bit a <;> cases s.set.bit b <;>
    simp [hMa, hMb, hMab, hMba] at t1 t2 ⊢
  refine ⟨sa, sab, sb, sba, hsa, hsab, hsb, hsba, hlen, ?_, ?_⟩
  · intro j
    unfold sieve_get
    exact bitset_get_congr sba.set sab.set j hlen hdlen (hbits j)
  · intro hbytes
    have hba := sieve_filter_bytes fuel sa sab b (sieve_filter_bytes fuel s sa a hbytes hsa) hsab
    have hbb := sieve_filter_bytes fuel sb sba a (sieve_filter_bytes fuel s sb b hbytes hsb) hsba
    have hset : sab.set = sba.set := bitset_ext_bits _ _ hlen hdlen hba hbb hbits
    cases sab
    cases sba
    simp only at hset
    subst hset
    rfl

/-- Witness for C18: the rounds for 2 and 4 on a zeroed sieve of length 10, where
the round for 4 is skipped when it comes second. -/
theorem sieve_filter_commute_witness :
    (⟨⟨10, [0, 0]⟩⟩ : sieve_t).set.WF ∧ (⟨⟨10, [0, 0]⟩⟩ : sieve_t).set.length ≤ 2 ^ 63 ∧
    2 ≤ 2 ∧ 2 < (⟨⟨10, [0, 0]⟩⟩ : sieve_t).set.length ∧
    2 ≤ 4 ∧ 4 < (⟨⟨10, [0, 0]⟩⟩ : sieve_t).set.length ∧
    (⟨⟨10, [0, 0]⟩⟩ : sieve_t).set.length / 2 ≤ 5 ∧
    ∃ sa sab sb sba, sieve_filter 5 ⟨⟨10, [0, 0]⟩⟩ 2 = .ok sa ∧
      sieve_filter 5 sa 4 = .ok sab ∧
      sieve_filter 5 ⟨⟨10, [0, 0]⟩⟩ 4 = .ok sb ∧ sieve_filter 5 sb 2 = .ok sba ∧
      bitset_len sab.set = bitset_len sba.set ∧
      (∀ j, sieve_get sab j = sieve_get sba j) ∧
      ((∀ x ∈ (⟨⟨10, [0, 0]⟩⟩ : sieve_t).set.data, x < 256) → sab = sba) :=
  ⟨by decide, by decide, by decide, by decide, by decide, by decide, by decide,
    sieve_filter_commute 5 ⟨⟨10, [0, 0]⟩⟩ 2 4 (by decide) (by decide) (by decide)
      (by decide) (by decide) (by decide) (by decide)⟩

end Sieve
